import Mathlib

/- Shallow embedding of the simulated-annealing graph-coloring core of
src/graph.py (generate_random_graph, initial_solution, cost, neighbor,
simulated_annealing, find_optimal_coloring).

Randomness is made explicit: every `random.random()`, `random.randint` and
`random.choice` draw is supplied by a stream parameter, universally
quantified in the theorems.  Python runtime errors (KeyError on a missing
dictionary key, IndexError from `random.choice` on an empty sequence,
ZeroDivisionError from dividing by a zero temperature) are modelled by
`Option`: `none` is a raised exception.  Colorings are association lists in
insertion order, modelling Python dictionaries keyed by node. -/

/-- An undirected graph as built by repeated `add_edge` calls: the list of
edges in insertion order.  As in networkx, the node set is derived from the
edges: a node exists only once an incident edge has been added. -/
structure Graph where
  edges : List (ℕ × ℕ)
deriving DecidableEq

/-- Append a node to the node list if it is not already present, as
`add_edge` does for each endpoint. -/
def insertNode (acc : List ℕ) (x : ℕ) : List ℕ :=
  if x ∈ acc then acc else acc ++ [x]

/-- `G.nodes()`: the nodes in insertion order, each endpoint of each edge
added when first seen. -/
def Graph.nodes (G : Graph) : List ℕ :=
  G.edges.foldl (fun acc e => insertNode (insertNode acc e.1) e.2) []

/-- All pairs (i, j) with i < j < n, in the order of the nested loops
`for i in range(n_nodes): for j in range(i+1, n_nodes)` of
`generate_random_graph`. -/
def allPairs (n : ℕ) : List (ℕ × ℕ) :=
  (List.range n).flatMap (fun i => (List.range' (i+1) (n - (i+1))).map (fun j => (i, j)))

/-- `generate_random_graph(n_nodes, edge_probability)` from src/graph.py.
`n_nodes` is an integer as in Python (`range` of a negative number is
empty); `r k` models the k-th `random.random()` draw, and the candidate
pair at position k of `allPairs` becomes an edge exactly when
`r k < edge_probability`.  No input validation is performed, mirroring the
source. -/
def generate_random_graph (n_nodes : ℤ) (edge_probability : ℚ) (r : ℕ → ℚ) : Graph :=
  ⟨(((allPairs n_nodes.toNat).enum).filter
      (fun q => decide (r q.1 < edge_probability))).map Prod.snd⟩

/-- Dictionary lookup `coloring[node]`; `none` models a Python KeyError. -/
def colorOf (coloring : List (ℕ × ℕ)) (node : ℕ) : Option ℕ :=
  (coloring.find? (fun p => p.1 == node)).map (fun p => p.2)

/-- `initial_solution(G, n_colors)` from src/graph.py: one
`random.randint(0, n_colors-1)` draw per node of `G`, the k-th node
receiving color `s k % n_colors`. -/
def initial_solution (G : Graph) (n_colors : ℕ) (s : ℕ → ℕ) : List (ℕ × ℕ) :=
  G.nodes.enum.map (fun p => (p.2, s p.1 % n_colors))

/-- `cost(G, coloring)` from src/graph.py: the number of edges whose two
endpoints map to the same color; `none` models the KeyError raised when the
coloring misses an endpoint. -/
def cost (G : Graph) (coloring : List (ℕ × ℕ)) : Option ℕ :=
  G.edges.foldr
    (fun e acc =>
      match colorOf coloring e.1, colorOf coloring e.2, acc with
      | some cu, some cv, some n => some (n + (if cu = cv then 1 else 0))
      | _, _, _ => none)
    (some 0)

/-- `neighbor(coloring, n_colors)` from src/graph.py: copy the coloring,
pick the node at index `dNode % len` of the key list (modelling
`random.choice(list(keys))`), and reassign it the color
`dColor % n_colors` (modelling `random.randint(0, n_colors-1)`).  `none`
models the IndexError `random.choice` raises on an empty sequence. -/
def neighbor (coloring : List (ℕ × ℕ)) (n_colors : ℕ) (dNode dColor : ℕ) :
    Option (List (ℕ × ℕ)) :=
  if coloring.isEmpty then none
  else
    let node := (coloring.getD (dNode % coloring.length) (0, 0)).1
    some (coloring.map (fun p => if p.1 = node then (node, dColor % n_colors) else p))

/-- The acceptance test on line 40 of src/graph.py:
`new_cost < current_cost or random.random() < math.exp((current_cost - new_cost) / temperature)`.
The `or` short-circuits, so the division is only evaluated in the second
operand; `none` models the ZeroDivisionError Python raises there when
`temperature = 0`.  In the second operand the candidate is not strictly
improving, so `current_cost - new_cost ≤ 0`: if `temperature < 0` the
exponent is ≥ 0 and `exp` is ≥ 1, exceeding every uniform draw in [0,1),
and likewise for equal costs (`exp 0 = 1`); only when `temperature > 0`
and `new_cost > current_cost` does the outcome genuinely depend on the
draw, which the Boolean `mb` abstracts. -/
def acceptDecision (new_cost current_cost : ℕ) (temperature : ℚ) (mb : Bool) :
    Option Bool :=
  if new_cost < current_cost then some true
  else if temperature = 0 then none
  else some (new_cost == current_cost || decide (temperature < 0) || mb)

/-- The exact acceptance criterion of line 40 over the reals: the candidate
is accepted iff it strictly improves, or the fresh uniform draw `u` is below
`exp((current_cost - new_cost) / temperature)`. -/
def metropolisAccept (u : ℝ) (current_cost new_cost : ℕ) (temperature : ℝ) : Prop :=
  new_cost < current_cost ∨
    u < Real.exp (((current_cost : ℝ) - (new_cost : ℝ)) / temperature)

/-- The loop state of `simulated_annealing`. -/
structure AnnealState where
  current : List (ℕ × ℕ)
  current_cost : ℕ
  best : List (ℕ × ℕ)
  best_cost : ℕ
  temperature : ℚ
  cost_history : List ℕ
deriving DecidableEq

/-- One iteration of the `simulated_annealing` loop (lines 37-47 of
src/graph.py): draw a neighbor, evaluate it, decide acceptance, update the
best-so-far on strict improvement, append the post-decision current cost to
the history, and cool the temperature. -/
def annealStep (G : Graph) (n_colors : ℕ) (cooling_rate : ℚ) (dNode dColor : ℕ)
    (mb : Bool) (st : AnnealState) : Option AnnealState :=
  match neighbor st.current n_colors dNode dColor with
  | none => none
  | some new_solution =>
    match cost G new_solution with
    | none => none
    | some new_cost =>
      match acceptDecision new_cost st.current_cost st.temperature mb with
      | none => none
      | some acc =>
        let st1 :=
          if acc then
            if new_cost < st.best_cost then
              { st with current := new_solution, current_cost := new_cost,
                        best := new_solution, best_cost := new_cost }
            else
              { st with current := new_solution, current_cost := new_cost }
          else st
        some { st1 with
                cost_history := st1.cost_history ++ [st1.current_cost],
                temperature := st1.temperature * cooling_rate }

/-- Run `k` iterations of the annealing loop starting at iteration index
`i`; iteration `i` consumes the draws `dNode i`, `dColor i` and `mb i`. -/
def annealIters (G : Graph) (n_colors : ℕ) (cooling_rate : ℚ)
    (dNode dColor : ℕ → ℕ) (mb : ℕ → Bool) : ℕ → ℕ → AnnealState → Option AnnealState
  | _, 0, st => some st
  | i, k + 1, st =>
    match annealStep G n_colors cooling_rate (dNode i) (dColor i) (mb i) st with
    | none => none
    | some st' => annealIters G n_colors cooling_rate dNode dColor mb (i + 1) k st'

/-- `simulated_annealing` (lines 29-49 of src/graph.py), returning the full
final loop state.  `n_iterations` is an integer as in Python; `range` of a
negative number runs zero iterations. -/
def runAnnealing (G : Graph) (n_colors : ℕ) (initial_temp cooling_rate : ℚ)
    (n_iterations : ℤ) (sInit dNode dColor : ℕ → ℕ) (mb : ℕ → Bool) :
    Option AnnealState :=
  let current := initial_solution G n_colors sInit
  match cost G current with
  | none => none
  | some c0 =>
    annealIters G n_colors cooling_rate dNode dColor mb 0 n_iterations.toNat
      ⟨current, c0, current, c0, initial_temp, [c0]⟩

/-- `simulated_annealing` as called by `find_optimal_coloring`: the returned
triple (best_solution, best_cost, cost_history). -/
def simulated_annealing (G : Graph) (n_colors : ℕ) (initial_temp cooling_rate : ℚ)
    (n_iterations : ℤ) (sInit dNode dColor : ℕ → ℕ) (mb : ℕ → Bool) :
    Option (List (ℕ × ℕ) × ℕ × List ℕ) :=
  match runAnnealing G n_colors initial_temp cooling_rate n_iterations sInit dNode dColor mb with
  | none => none
  | some st => some (st.best, st.best_cost, st.cost_history)

/-- The `while True` loop of `find_optimal_coloring` (lines 53-57 of
src/graph.py), with explicit fuel modelling possible non-termination
(`none` on fuel exhaustion) and the current color count as an argument.
The attempt with `n_colors = k` consumes the draw streams at index `k`. -/
def findLoop (G : Graph) (initial_temp cooling_rate : ℚ) (n_iterations : ℤ)
    (sInit dNode dColor : ℕ → ℕ → ℕ) (mb : ℕ → ℕ → Bool) :
    ℕ → ℕ → Option (List (ℕ × ℕ) × ℕ × List ℕ)
  | 0, _ => none
  | fuel + 1, k =>
    match simulated_annealing G k initial_temp cooling_rate n_iterations
        (sInit k) (dNode k) (dColor k) (mb k) with
    | none => none
    | some (best_solution, best_cost, cost_history) =>
      if best_cost = 0 then some (best_solution, k, cost_history)
      else findLoop G initial_temp cooling_rate n_iterations sInit dNode dColor mb fuel (k + 1)

/-- `find_optimal_coloring(G, initial_temp, cooling_rate, n_iterations)`
from src/graph.py: start at `n_colors = 1` and escalate. -/
def find_optimal_coloring (G : Graph) (initial_temp cooling_rate : ℚ)
    (n_iterations : ℤ) (sInit dNode dColor : ℕ → ℕ → ℕ) (mb : ℕ → ℕ → Bool)
    (fuel : ℕ) : Option (List (ℕ × ℕ) × ℕ × List ℕ) :=
  findLoop G initial_temp cooling_rate n_iterations sInit dNode dColor mb fuel 1

/-- From the spec's words: a proper coloring has no edge whose two endpoints
receive the same color. -/
def properColoring (G : Graph) (coloring : List (ℕ × ℕ)) : Prop :=
  ∀ e ∈ G.edges, colorOf coloring e.1 ≠ colorOf coloring e.2

/- ### Helper lemmas about node lists and lookups -/

theorem mem_insertNode {acc : List ℕ} {x y : ℕ} :
    y ∈ insertNode acc x ↔ y ∈ acc ∨ y = x := by
  unfold insertNode
  by_cases h : x ∈ acc
  · simp only [if_pos h]
    constructor
    · exact Or.inl
    · rintro (hy | rfl)
      · exact hy
      · exact h
  · simp [if_neg h]

theorem mem_nodes_foldl (l : List (ℕ × ℕ)) :
    ∀ (acc : List ℕ) (x : ℕ),
      x ∈ l.foldl (fun acc e => insertNode (insertNode acc e.1) e.2) acc ↔
        x ∈ acc ∨ ∃ e ∈ l, x = e.1 ∨ x = e.2 := by
  induction l with
  | nil => intro acc x; simp
  | cons e rest ih =>
    intro acc x
    rw [List.foldl_cons, ih, mem_insertNode, mem_insertNode]
    simp only [List.mem_cons]
    constructor
    · rintro (((h | h) | h) | ⟨e', he', h⟩)
      · exact Or.inl h
      · exact Or.inr ⟨e, Or.inl rfl, Or.inl h⟩
      · exact Or.inr ⟨e, Or.inl rfl, Or.inr h⟩
      · exact Or.inr ⟨e', Or.inr he', h⟩
    · rintro (h | ⟨e', (rfl | he'), h⟩)
      · exact Or.inl (Or.inl (Or.inl h))
      · rcases h with h | h
        · exact Or.inl (Or.inl (Or.inr h))
        · exact Or.inl (Or.inr h)
      · exact Or.inr ⟨e', he', h⟩

theorem Graph.mem_nodes (G : Graph) (x : ℕ) :
    x ∈ G.nodes ↔ ∃ e ∈ G.edges, x = e.1 ∨ x = e.2 := by
  unfold Graph.nodes
  rw [mem_nodes_foldl]
  simp

theorem endpoint_mem_nodes {G : Graph} {e : ℕ × ℕ} (he : e ∈ G.edges) :
    e.1 ∈ G.nodes ∧ e.2 ∈ G.nodes :=
  ⟨(G.mem_nodes e.1).mpr ⟨e, he, Or.inl rfl⟩, (G.mem_nodes e.2).mpr ⟨e, he, Or.inr rfl⟩⟩

/- ### Cost function lemmas -/

theorem cost_eq_filter_length (coloring : List (ℕ × ℕ)) :
    ∀ (edges : List (ℕ × ℕ)),
      (∀ e ∈ edges, (colorOf coloring e.1).isSome ∧ (colorOf coloring e.2).isSome) →
      cost ⟨edges⟩ coloring =
        some ((edges.filter
          (fun e => colorOf coloring e.1 == colorOf coloring e.2)).length) := by
  intro edges
  induction edges with
  | nil => intro _; rfl
  | cons e rest ih =>
    intro h
    obtain ⟨hu, hv⟩ := h e (List.mem_cons_self e rest)
    obtain ⟨cu, hcu⟩ := Option.isSome_iff_exists.mp hu
    obtain ⟨cv, hcv⟩ := Option.isSome_iff_exists.mp hv
    have hrest := ih (fun e' he' => h e' (List.mem_cons_of_mem e he'))
    show (match colorOf coloring e.1, colorOf coloring e.2, cost ⟨rest⟩ coloring with
      | some cu, some cv, some n => some (n + (if cu = cv then 1 else 0))
      | _, _, _ => none) = _
    rw [hcu, hcv, hrest, List.filter_cons]
    by_cases hc : cu = cv
    · simp [hcu, hcv, hc, Nat.add_comm]
    · simp [hcu, hcv, hc]

/- ### Neighbor lemmas -/

theorem colorOf_update_self (node v : ℕ) :
    ∀ (l : List (ℕ × ℕ)), node ∈ l.map Prod.fst →
      colorOf (l.map (fun p => if p.1 = node then (node, v) else p)) node = some v := by
  intro l
  induction l with
  | nil => intro h; simp at h
  | cons p rest ih =>
    intro h
    by_cases hp : p.1 = node
    · simp [colorOf, List.find?, hp]
    · have : node ∈ rest.map Prod.fst := by
        rcases List.mem_map.mp h with ⟨q, hq, hq2⟩
        rcases List.mem_cons.mp hq with rfl | hq
        · exact absurd hq2 hp
        · exact List.mem_map.mpr ⟨q, hq, hq2⟩
      have hrec := ih this
      have hpf : (p.1 == node) = false := by simp [hp]
      simp only [colorOf, List.map_cons, List.find?, if_neg hp, hpf] at hrec ⊢
      exact hrec

theorem colorOf_update_other (node v x : ℕ) (hx : x ≠ node) :
    ∀ (l : List (ℕ × ℕ)),
      colorOf (l.map (fun p => if p.1 = node then (node, v) else p)) x = colorOf l x := by
  intro l
  induction l with
  | nil => rfl
  | cons p rest ih =>
    have hnx : node ≠ x := fun h => hx h.symm
    by_cases hp : p.1 = node
    · have h1 : (node == x) = false := by simp [hnx]
      have h2 : (p.1 == x) = false := by rw [hp]; simp [hnx]
      simp only [colorOf, List.map_cons, List.find?, if_pos hp, h1, h2] at ih ⊢
      exact ih
    · have hif : (if p.1 = node then (node, v) else p) = p := if_neg hp
      by_cases hpx : p.1 = x
      · have h2 : (p.1 == x) = true := by simp [hpx]
        simp only [colorOf, List.map_cons, List.find?, hif, h2]
      · have h2 : (p.1 == x) = false := by simp [hpx]
        simp only [colorOf, List.map_cons, List.find?, hif, h2] at ih ⊢
        exact ih

theorem update_keys (node v : ℕ) (l : List (ℕ × ℕ)) :
    (l.map (fun p => if p.1 = node then (node, v) else p)).map Prod.fst =
      l.map Prod.fst := by
  rw [List.map_map]
  apply List.map_congr_left
  intro p _
  by_cases hp : p.1 = node <;> simp [hp]

/-- C2: for a coloring total over the graph's nodes, `cost` returns (as a
natural number, hence non-negative) exactly the number of edges whose two
endpoints receive the same color, and it returns 0 precisely when the
coloring is proper. -/
theorem cost_counts_conflicts (G : Graph) (coloring : List (ℕ × ℕ))
    (h : ∀ x ∈ G.nodes, (colorOf coloring x).isSome) :
    cost G coloring =
      some ((G.edges.filter
        (fun e => colorOf coloring e.1 == colorOf coloring e.2)).length)
    ∧ (cost G coloring = some 0 ↔ properColoring G coloring) := by
  have hends : ∀ e ∈ G.edges, (colorOf coloring e.1).isSome ∧ (colorOf coloring e.2).isSome := by
    intro e he
    obtain ⟨h1, h2⟩ := endpoint_mem_nodes he
    exact ⟨h e.1 h1, h e.2 h2⟩
  have hval : cost G coloring =
      some ((G.edges.filter
        (fun e => colorOf coloring e.1 == colorOf coloring e.2)).length) :=
    cost_eq_filter_length coloring G.edges hends
  refine ⟨hval, ?_⟩
  rw [hval]
  constructor
  · intro h0
    have hlen : (G.edges.filter
        (fun e => colorOf coloring e.1 == colorOf coloring e.2)).length = 0 :=
      (Option.some.injEq _ _).mp h0
    have hnil := List.length_eq_zero.mp hlen
    intro e he heq
    have : e ∈ G.edges.filter (fun e => colorOf coloring e.1 == colorOf coloring e.2) := by
      rw [List.mem_filter]
      exact ⟨he, by simp [heq]⟩
    rw [hnil] at this
    simp at this
  · intro hproper
    have hnil : G.edges.filter (fun e => colorOf coloring e.1 == colorOf coloring e.2) = [] := by
      rw [List.filter_eq_nil_iff]
      intro e he
      simp only [beq_iff_eq]
      exact hproper e he
    rw [hnil]
    rfl

/-- Witness for C2 on a concrete triangle-free instance: the single edge
(0,1) is conflict-free under the coloring 0 ↦ 0, 1 ↦ 1. -/
theorem cost_counts_conflicts_witness :
    (∀ x ∈ (Graph.mk [(0, 1)]).nodes, (colorOf [(0, 0), (1, 1)] x).isSome)
    ∧ (cost ⟨[(0, 1)]⟩ [(0, 0), (1, 1)] =
        some (((Graph.mk [(0, 1)]).edges.filter
          (fun e => colorOf [(0, 0), (1, 1)] e.1 == colorOf [(0, 0), (1, 1)] e.2)).length)
      ∧ (cost ⟨[(0, 1)]⟩ [(0, 0), (1, 1)] = some 0 ↔
          properColoring ⟨[(0, 1)]⟩ [(0, 0), (1, 1)])) :=
  ⟨by decide, cost_counts_conflicts ⟨[(0, 1)]⟩ [(0, 0), (1, 1)] (by decide)⟩

/-- C3: on a non-empty coloring with at least one color available,
`neighbor` succeeds and returns a coloring with exactly the same key list,
agreeing with the input everywhere except possibly at the one selected node,
whose new color lies in [0, n_colors). -/
theorem neighbor_single_move (coloring : List (ℕ × ℕ)) (n_colors dNode dColor : ℕ)
    (hne : coloring ≠ []) (hk : 1 ≤ n_colors) :
    ∃ c' node, neighbor coloring n_colors dNode dColor = some c' ∧
      node ∈ coloring.map Prod.fst ∧
      c'.map Prod.fst = coloring.map Prod.fst ∧
      colorOf c' node = some (dColor % n_colors) ∧
      dColor % n_colors < n_colors ∧
      ∀ x, x ≠ node → colorOf c' x = colorOf coloring x := by
  have hlen : 0 < coloring.length := List.length_pos.mpr hne
  have hemp : coloring.isEmpty = false := by
    cases coloring with
    | nil => exact absurd rfl hne
    | cons p l => rfl
  have hidx : dNode % coloring.length < coloring.length := Nat.mod_lt _ hlen
  set node := (coloring.getD (dNode % coloring.length) (0, 0)).1 with hnode
  have hmem : node ∈ coloring.map Prod.fst := by
    rw [hnode, List.getD_eq_getElem coloring (0, 0) hidx]
    exact List.mem_map_of_mem Prod.fst (coloring.getElem_mem hidx)
  refine ⟨coloring.map (fun p => if p.1 = node then (node, dColor % n_colors) else p),
    node, ?_, hmem, update_keys node (dColor % n_colors) coloring,
    colorOf_update_self node (dColor % n_colors) coloring hmem,
    Nat.mod_lt _ hk,
    fun x hx => colorOf_update_other node (dColor % n_colors) x hx coloring⟩
  unfold neighbor
  rw [hemp]
  rfl

/-- Witness for C3 at the concrete coloring [(0,0),(1,0)] with 2 colors,
draws selecting the node at index 1 and the color 1. -/
theorem neighbor_single_move_witness :
    ([(0, 0), (1, 0)] : List (ℕ × ℕ)) ≠ [] ∧ 1 ≤ 2 ∧
    (∃ c' node, neighbor [(0, 0), (1, 0)] 2 1 1 = some c' ∧
      node ∈ ([(0, 0), (1, 0)] : List (ℕ × ℕ)).map Prod.fst ∧
      c'.map Prod.fst = ([(0, 0), (1, 0)] : List (ℕ × ℕ)).map Prod.fst ∧
      colorOf c' node = some (1 % 2) ∧
      1 % 2 < 2 ∧
      ∀ x, x ≠ node → colorOf c' x = colorOf [(0, 0), (1, 0)] x) :=
  ⟨by decide, by decide, neighbor_single_move [(0, 0), (1, 0)] 2 1 1 (by decide) (by decide)⟩

/- ### Annealing loop lemmas -/

theorem annealStep_shape (G : Graph) (n_colors : ℕ) (cooling_rate : ℚ)
    (dNode dColor : ℕ) (mb : Bool) (st st' : AnnealState)
    (h : annealStep G n_colors cooling_rate dNode dColor mb st = some st') :
    st'.cost_history = st.cost_history ++ [st'.current_cost] ∧
    st'.best_cost ≤ st.best_cost ∧
    (st'.best = st.best ∨ st'.best_cost < st.best_cost) := by
  unfold annealStep at h
  split at h
  · exact absurd h (by simp)
  · rename_i ns hn
    split at h
    · exact absurd h (by simp)
    · rename_i nc hc
      split at h
      · exact absurd h (by simp)
      · rename_i acc ha
        simp only [Option.some.injEq] at h
        cases acc with
        | false =>
          subst h
          simp
        | true =>
          by_cases hb : nc < st.best_cost
          · rw [if_pos rfl, if_pos hb] at h
            subst h
            exact ⟨rfl, le_of_lt hb, Or.inr hb⟩
          · rw [if_pos rfl, if_neg hb] at h
            subst h
            simp

theorem annealIters_shape (G : Graph) (n_colors : ℕ) (cooling_rate : ℚ)
    (dNode dColor : ℕ → ℕ) (mb : ℕ → Bool) :
    ∀ (k i : ℕ) (st st' : AnnealState),
      annealIters G n_colors cooling_rate dNode dColor mb i k st = some st' →
      st'.cost_history.length = st.cost_history.length + k ∧
      st'.best_cost ≤ st.best_cost ∧
      (k = 0 ∨ st'.cost_history.getLast? = some st'.current_cost) ∧
      (st.cost_history ≠ [] →
        st'.cost_history.head? = st.cost_history.head? ∧ st'.cost_history ≠ []) := by
  intro k
  induction k with
  | zero =>
    intro i st st' h
    simp only [annealIters, Option.some.injEq] at h
    subst h
    exact ⟨rfl, le_refl _, Or.inl rfl, fun hne => ⟨rfl, hne⟩⟩
  | succ k ih =>
    intro i st st' h
    simp only [annealIters] at h
    cases hs : annealStep G n_colors cooling_rate (dNode i) (dColor i) (mb i) st with
    | none => rw [hs] at h; exact absurd h (by simp)
    | some mid =>
      rw [hs] at h
      obtain ⟨hhist, hbest, _⟩ := annealStep_shape _ _ _ _ _ _ _ _ hs
      obtain ⟨ihlen, ihbest, ihlast, ihhead⟩ := ih (i + 1) mid st' h
      have hmidne : mid.cost_history ≠ [] := by
        rw [hhist]; exact List.append_ne_nil_of_right_ne_nil _ (by simp)
      have hmidlast : mid.cost_history.getLast? = some mid.current_cost := by
        rw [hhist]; exact List.getLast?_concat _
      refine ⟨?_, le_trans ihbest hbest, ?_, ?_⟩
      · rw [ihlen, hhist, List.length_append]
        simp [Nat.add_assoc, Nat.add_comm 1 k]
      · rcases ihlast with hk0 | hlast
        · subst hk0
          simp only [annealIters, Option.some.injEq] at h
          subst h
          exact Or.inr hmidlast
        · exact Or.inr hlast
      · intro hne
        obtain ⟨ihh, ihne⟩ := ihhead hmidne
        refine ⟨?_, ihne⟩
        rw [ihh, hhist]
        rw [List.head?_append]
        cases hcase : st.cost_history with
        | nil => exact absurd hcase hne
        | cons a l => simp

theorem runAnnealing_shape (G : Graph) (n_colors : ℕ) (it cr : ℚ) (nit : ℤ)
    (sI dN dC : ℕ → ℕ) (mb : ℕ → Bool) (st' : AnnealState)
    (h : runAnnealing G n_colors it cr nit sI dN dC mb = some st') :
    ∃ c0, cost G (initial_solution G n_colors sI) = some c0 ∧
      st'.cost_history.length = nit.toNat + 1 ∧
      st'.cost_history.head? = some c0 ∧
      st'.cost_history.getLast? = some st'.current_cost ∧
      st'.best_cost ≤ c0 := by
  simp only [runAnnealing] at h
  split at h
  · exact absurd h (by simp)
  · rename_i c0 hc
    obtain ⟨hlen, hbest, hlast, hhead⟩ :=
      annealIters_shape G n_colors cr dN dC mb nit.toNat 0 _ st' h
    refine ⟨c0, hc, ?_, ?_, ?_, hbest⟩
    · simpa [Nat.add_comm] using hlen
    · obtain ⟨hh, _⟩ := hhead (by simp)
      simpa using hh
    · rcases hlast with hk0 | hl
      · rw [hk0] at h
        simp only [annealIters, Option.some.injEq] at h
        subst h
        rfl
      · exact hl

/-- C4: within one annealing run, the cost history has length
`n_iterations + 1`, starts with the cost of the initial random coloring, and
ends with the cost of the `current` state at the end of the run; the second
conjunct shows on a concrete one-iteration run that this final entry can
differ from the returned `best_cost`. -/
theorem cost_history_contract :
    (∀ (G : Graph) (n_colors : ℕ) (it cr : ℚ) (nit : ℤ) (sI dN dC : ℕ → ℕ)
       (mb : ℕ → Bool) (st' : AnnealState),
       0 ≤ nit →
       runAnnealing G n_colors it cr nit sI dN dC mb = some st' →
       st'.cost_history.length = nit.toNat + 1 ∧
       st'.cost_history.head? = cost G (initial_solution G n_colors sI) ∧
       st'.cost_history.getLast? = some st'.current_cost)
    ∧ (∀ (G : Graph) (n_colors : ℕ) (it cr : ℚ) (nit : ℤ) (sI dN dC : ℕ → ℕ)
       (mb : ℕ → Bool) (best : List (ℕ × ℕ)) (bc : ℕ) (hist : List ℕ),
       simulated_annealing G n_colors it cr nit sI dN dC mb = some (best, bc, hist) →
       ∃ st', runAnnealing G n_colors it cr nit sI dN dC mb = some st' ∧
         hist = st'.cost_history ∧ bc = st'.best_cost)
    ∧ (runAnnealing ⟨[(0, 1)]⟩ 2 1 1 1 (fun k => k) (fun _ => 1) (fun _ => 0)
        (fun _ => true)).map (fun st => (st.cost_history.getLast?, st.best_cost)) =
        some (some 1, 0) := by
  refine ⟨?_, ?_, rfl⟩
  · intro G n_colors it cr nit sI dN dC mb st' _ h
    obtain ⟨c0, hc, hlen, hhead, hlast, _⟩ :=
      runAnnealing_shape G n_colors it cr nit sI dN dC mb st' h
    exact ⟨hlen, by rw [hhead, hc], hlast⟩
  · intro G n_colors it cr nit sI dN dC mb best bc hist h
    unfold simulated_annealing at h
    split at h
    · exact absurd h (by simp)
    · rename_i st hst
      simp only [Option.some.injEq, Prod.mk.injEq] at h
      exact ⟨st, hst, h.2.2.symm, h.2.1.symm⟩

/-- Witness for C4: a zero-iteration run on the single-edge graph with one
color; the history is the single initial cost 1. -/
theorem cost_history_contract_witness :
    (0 : ℤ) ≤ 0 ∧
    runAnnealing ⟨[(0, 1)]⟩ 1 1 1 0 (fun _ => 0) (fun _ => 0) (fun _ => 0)
      (fun _ => false) =
      some ⟨[(0, 0), (1, 0)], 1, [(0, 0), (1, 0)], 1, 1, [1]⟩ ∧
    ((⟨[(0, 0), (1, 0)], 1, [(0, 0), (1, 0)], 1, 1, [1]⟩ : AnnealState).cost_history.length =
        (0 : ℤ).toNat + 1 ∧
      (⟨[(0, 0), (1, 0)], 1, [(0, 0), (1, 0)], 1, 1, [1]⟩ : AnnealState).cost_history.head? =
        cost ⟨[(0, 1)]⟩ (initial_solution ⟨[(0, 1)]⟩ 1 (fun _ => 0)) ∧
      (⟨[(0, 0), (1, 0)], 1, [(0, 0), (1, 0)], 1, 1, [1]⟩ : AnnealState).cost_history.getLast? =
        some (⟨[(0, 0), (1, 0)], 1, [(0, 0), (1, 0)], 1, 1, [1]⟩ : AnnealState).current_cost) :=
  ⟨le_refl 0, rfl,
    cost_history_contract.1 ⟨[(0, 1)]⟩ 1 1 1 0 (fun _ => 0) (fun _ => 0) (fun _ => 0)
      (fun _ => false) ⟨[(0, 0), (1, 0)], 1, [(0, 0), (1, 0)], 1, 1, [1]⟩ (le_refl 0) rfl⟩

/-- C5: the best-so-far cost never increases, at step level and across any
number of iterations; the best-so-far coloring is replaced only when a
strictly lower cost is observed; and the best cost returned by
`simulated_annealing` is at most the cost of the initial coloring. -/
theorem best_cost_non_increasing :
    (∀ (G : Graph) (n_colors : ℕ) (cooling_rate : ℚ) (dNode dColor : ℕ) (mb : Bool)
       (st st' : AnnealState),
       annealStep G n_colors cooling_rate dNode dColor mb st = some st' →
       st'.best_cost ≤ st.best_cost ∧ (st'.best = st.best ∨ st'.best_cost < st.best_cost))
    ∧ (∀ (G : Graph) (n_colors : ℕ) (cooling_rate : ℚ) (dNode dColor : ℕ → ℕ)
       (mb : ℕ → Bool) (i k : ℕ) (st st' : AnnealState),
       annealIters G n_colors cooling_rate dNode dColor mb i k st = some st' →
       st'.best_cost ≤ st.best_cost)
    ∧ (∀ (G : Graph) (n_colors : ℕ) (it cr : ℚ) (nit : ℤ) (sI dN dC : ℕ → ℕ)
       (mb : ℕ → Bool) (best : List (ℕ × ℕ)) (bc : ℕ) (hist : List ℕ) (c0 : ℕ),
       simulated_annealing G n_colors it cr nit sI dN dC mb = some (best, bc, hist) →
       cost G (initial_solution G n_colors sI) = some c0 →
       bc ≤ c0) := by
  refine ⟨?_, ?_, ?_⟩
  · intro G n_colors cooling_rate dNode dColor mb st st' h
    obtain ⟨_, h2, h3⟩ := annealStep_shape G n_colors cooling_rate dNode dColor mb st st' h
    exact ⟨h2, h3⟩
  · intro G n_colors cooling_rate dNode dColor mb i k st st' h
    exact (annealIters_shape G n_colors cooling_rate dNode dColor mb k i st st' h).2.1
  · intro G n_colors it cr nit sI dN dC mb best bc hist c0 h hc
    unfold simulated_annealing at h
    split at h
    · exact absurd h (by simp)
    · rename_i st hst
      obtain ⟨c0', hc', _, _, _, hble⟩ :=
        runAnnealing_shape G n_colors it cr nit sI dN dC mb st hst
      have hbc : bc = st.best_cost := by
        simp only [Option.some.injEq, Prod.mk.injEq] at h
        exact h.2.1.symm
      rw [hc'] at hc
      have : c0' = c0 := (Option.some.injEq _ _).mp hc
      rw [hbc, ← this]
      exact hble

/-- Witness for C5: the zero-iteration run on the single-edge graph with one
color returns best cost 1, equal to (hence at most) the initial cost 1. -/
theorem best_cost_non_increasing_witness :
    simulated_annealing ⟨[(0, 1)]⟩ 1 1 1 0 (fun _ => 0) (fun _ => 0) (fun _ => 0)
      (fun _ => false) = some ([(0, 0), (1, 0)], 1, [1]) ∧
    cost ⟨[(0, 1)]⟩ (initial_solution ⟨[(0, 1)]⟩ 1 (fun _ => 0)) = some 1 ∧
    (1 : ℕ) ≤ 1 :=
  ⟨rfl, rfl,
    best_cost_non_increasing.2.2 ⟨[(0, 1)]⟩ 1 1 1 0 (fun _ => 0) (fun _ => 0) (fun _ => 0)
      (fun _ => false) [(0, 0), (1, 0)] 1 [1] 1 rfl rfl⟩

/-- C6: under the exact line-40 criterion, an equal-cost candidate is always
accepted at positive temperature, because every uniform draw in [0,1) is
below `exp(0) = 1`; correspondingly, in the loop embedding the acceptance
decision is `some true` whenever the costs are equal and the division is
defined. -/
theorem equal_cost_always_accepted :
    (∀ (u : ℝ) (c : ℕ) (T : ℝ), 0 ≤ u → u < 1 → 0 < T → metropolisAccept u c c T)
    ∧ (∀ (c : ℕ) (T : ℚ) (mb : Bool), T ≠ 0 → acceptDecision c c T mb = some true) := by
  constructor
  · intro u c T _ hu1 _
    unfold metropolisAccept
    right
    rw [sub_self, zero_div, Real.exp_zero]
    exact hu1
  · intro c T mb hT
    unfold acceptDecision
    rw [if_neg (lt_irrefl c), if_neg hT]
    simp

/-- Witness for C6 at u = 1/2, equal costs 3, temperature 1. -/
theorem equal_cost_always_accepted_witness :
    (0 : ℝ) ≤ 1 / 2 ∧ (1 / 2 : ℝ) < 1 ∧ (0 : ℝ) < 1 ∧
    metropolisAccept (1 / 2) 3 3 1 ∧
    (1 : ℚ) ≠ 0 ∧ acceptDecision 3 3 1 false = some true :=
  ⟨by norm_num, by norm_num, by norm_num,
    equal_cost_always_accepted.1 (1 / 2) 3 1 (by norm_num) (by norm_num) (by norm_num),
    by norm_num,
    equal_cost_always_accepted.2 3 1 false (by norm_num)⟩

/- ### The outer color-count search -/

theorem findLoop_spec (G : Graph) (it cr : ℚ) (nit : ℤ)
    (sI dN dC : ℕ → ℕ → ℕ) (mb : ℕ → ℕ → Bool) :
    ∀ (fuel k0 k : ℕ) (sol : List (ℕ × ℕ)) (hist : List ℕ),
      findLoop G it cr nit sI dN dC mb fuel k0 = some (sol, k, hist) →
      k0 ≤ k ∧
      simulated_annealing G k it cr nit (sI k) (dN k) (dC k) (mb k) = some (sol, 0, hist) ∧
      ∀ j, k0 ≤ j → j < k →
        ∃ bj cj hj,
          simulated_annealing G j it cr nit (sI j) (dN j) (dC j) (mb j) =
            some (bj, cj, hj) ∧ cj ≠ 0 := by
  intro fuel
  induction fuel with
  | zero =>
    intro k0 k sol hist h
    exact absurd h (by simp [findLoop])
  | succ fuel ih =>
    intro k0 k sol hist h
    simp only [findLoop] at h
    split at h
    · exact absurd h (by simp)
    · rename_i res best_solution best_cost cost_history hres
      by_cases hz : best_cost = 0
      · rw [if_pos hz] at h
        simp only [Option.some.injEq, Prod.mk.injEq] at h
        obtain ⟨rfl, rfl, rfl⟩ := h
        subst hz
        exact ⟨le_refl _, hres, fun j hj1 hj2 => absurd (lt_of_le_of_lt hj1 hj2) (lt_irrefl _)⟩
      · rw [if_neg hz] at h
        obtain ⟨hk, hsucc, hfail⟩ := ih (k0 + 1) k sol hist h
        refine ⟨le_trans (Nat.le_succ k0) hk, hsucc, ?_⟩
        intro j hj1 hj2
        by_cases hjk : j = k0
        · subst hjk
          exact ⟨best_solution, best_cost, cost_history, hres, hz⟩
        · exact hfail j (by omega) hj2

/-- C1: whenever `find_optimal_coloring` returns `(sol, k, hist)`, the
annealing engine was invoked with `n_colors = 1, 2, ...` in order: every
attempt below `k` returned a nonzero best cost, and the attempt at `k` is
the first success, returning best cost 0 with exactly `sol` and `hist` as
its best coloring and its own cost trace (earlier traces are discarded). -/
theorem find_optimal_coloring_spec (G : Graph) (it cr : ℚ) (nit : ℤ)
    (sI dN dC : ℕ → ℕ → ℕ) (mb : ℕ → ℕ → Bool) (fuel k : ℕ)
    (sol : List (ℕ × ℕ)) (hist : List ℕ)
    (h : find_optimal_coloring G it cr nit sI dN dC mb fuel = some (sol, k, hist)) :
    1 ≤ k ∧
    simulated_annealing G k it cr nit (sI k) (dN k) (dC k) (mb k) = some (sol, 0, hist) ∧
    ∀ j, 1 ≤ j → j < k →
      ∃ bj cj hj,
        simulated_annealing G j it cr nit (sI j) (dN j) (dC j) (mb j) =
          some (bj, cj, hj) ∧ cj ≠ 0 :=
  findLoop_spec G it cr nit sI dN dC mb fuel 1 k sol hist h

/-- Witness for C1: on the single-edge graph with zero iterations and the
initial draw giving node i color i, the 1-color attempt has best cost 1 and
the 2-color attempt succeeds, so the search returns n_colors = 2 with the
second attempt's history [0]. -/
theorem find_optimal_coloring_spec_witness :
    find_optimal_coloring ⟨[(0, 1)]⟩ 1 1 0 (fun _ k => k) (fun _ _ => 0) (fun _ _ => 0)
      (fun _ _ => false) 3 = some ([(0, 0), (1, 1)], 2, [0]) ∧
    (1 ≤ 2 ∧
      simulated_annealing ⟨[(0, 1)]⟩ 2 1 1 0 (fun k => k) (fun _ => 0) (fun _ => 0)
        (fun _ => false) = some ([(0, 0), (1, 1)], 0, [0]) ∧
      ∀ j, 1 ≤ j → j < 2 →
        ∃ bj cj hj,
          simulated_annealing ⟨[(0, 1)]⟩ j 1 1 0 (fun k => k) (fun _ => 0) (fun _ => 0)
            (fun _ => false) = some (bj, cj, hj) ∧ cj ≠ 0) :=
  ⟨rfl,
    find_optimal_coloring_spec ⟨[(0, 1)]⟩ 1 1 0 (fun _ k => k) (fun _ _ => 0) (fun _ _ => 0)
      (fun _ _ => false) 3 2 [(0, 0), (1, 1)] [0] rfl⟩

/- ### Random graph generation lemmas -/

theorem mem_allPairs (n i j : ℕ) : (i, j) ∈ allPairs n ↔ i < j ∧ j < n := by
  unfold allPairs
  rw [List.mem_flatMap]
  constructor
  · rintro ⟨a, ha, hmem⟩
    rw [List.mem_range] at ha
    obtain ⟨j', hj', heq⟩ := List.mem_map.mp hmem
    obtain ⟨t, ht, rfl⟩ := List.mem_range'.mp hj'
    have ha1 : a = i := congrArg Prod.fst heq
    have ha2 : a + 1 + 1 * t = j := congrArg Prod.snd heq
    omega
  · rintro ⟨hij, hjn⟩
    refine ⟨i, List.mem_range.mpr (lt_trans hij hjn), List.mem_map.mpr ⟨j, ?_, rfl⟩⟩
    rw [List.mem_range']
    exact ⟨j - (i + 1), by omega, by omega⟩

theorem allPairs_nodup (n : ℕ) : (allPairs n).Nodup := by
  unfold allPairs
  rw [List.nodup_flatMap]
  constructor
  · intro i _
    exact (List.nodup_range' _ _).map (fun a b h => congrArg Prod.snd h)
  · have hlt := List.pairwise_lt_range n
    refine hlt.imp ?_
    intro a b hab
    intro x hxa hxb
    obtain ⟨_, _, rfl⟩ := List.mem_map.mp hxa
    obtain ⟨_, _, hx⟩ := List.mem_map.mp hxb
    have := congrArg Prod.fst hx
    simp only at this
    omega

theorem generated_edges_sublist (n_nodes : ℤ) (p : ℚ) (r : ℕ → ℚ) :
    (generate_random_graph n_nodes p r).edges.Sublist (allPairs n_nodes.toNat) := by
  unfold generate_random_graph
  have h1 : ((allPairs n_nodes.toNat).enum.filter
      (fun q => decide (r q.1 < p))).Sublist (allPairs n_nodes.toNat).enum :=
    List.filter_sublist _
  have h2 := h1.map Prod.snd
  rwa [List.enum_map_snd] at h2

/-- C8 (amended): the generated graph's edges are ordered pairs i < j with
j < n_nodes, with no duplicates, and the node list consists exactly of the
endpoints of the generated edges — a node incident to no generated edge is
absent, so the node set need not be all of {0, ..., n_nodes - 1}. -/
theorem generated_graph_wellformed (n_nodes : ℤ) (p : ℚ) (r : ℕ → ℚ) :
    (∀ e ∈ (generate_random_graph n_nodes p r).edges,
      e.1 < e.2 ∧ e.2 < n_nodes.toNat) ∧
    (generate_random_graph n_nodes p r).edges.Nodup ∧
    (∀ x, x ∈ (generate_random_graph n_nodes p r).nodes ↔
      ∃ e ∈ (generate_random_graph n_nodes p r).edges, x = e.1 ∨ x = e.2) := by
  refine ⟨?_, ?_, fun x => Graph.mem_nodes _ x⟩
  · intro e he
    have := (generated_edges_sublist n_nodes p r).subset he
    exact (mem_allPairs n_nodes.toNat e.1 e.2).mp (by simpa using this)
  · exact (generated_edges_sublist n_nodes p r).nodup (allPairs_nodup _)

/-- Counterexample to C8 as stated: with n_nodes = 2 and the valid
edge_probability 0, no edge is generated, so node 0 (which the claim says
must be present) is missing and the node set is empty, not {0, 1}. -/
theorem isolated_nodes_missing :
    (generate_random_graph 2 0 (fun _ => 0)).nodes = [] ∧
    ¬ (0 ∈ (generate_random_graph 2 0 (fun _ => 0)).nodes) := by
  exact ⟨rfl, by decide⟩

/-- C7 fails: no numeric input is validated anywhere.  `generate_random_graph`
accepts a negative node count and an edge probability above 1 and silently
returns a graph, and `find_optimal_coloring` accepts a non-positive initial
temperature, a non-positive cooling rate and a negative iteration count and
silently returns a result — no InvalidArgument condition exists in the code. -/
theorem no_input_validation :
    (∀ r : ℕ → ℚ, generate_random_graph (-3) (3 / 2) r = ⟨[]⟩) ∧
    find_optimal_coloring ⟨[]⟩ (-1) (-1) (-5) (fun _ _ => 0) (fun _ _ => 0)
      (fun _ _ => 0) (fun _ _ => false) 1 = some ([], 1, [0]) := by
  exact ⟨fun r => rfl, rfl⟩

/-- C9 fails: the code does not implement greedy descent at non-positive
temperature.  At temperature exactly 0 a non-improving candidate makes the
Metropolis expression divide by zero (`acceptDecision` returns `none`, the
ZeroDivisionError), and a full two-iteration run with cooling_rate = 0
faults this way; at negative temperature a strictly WORSE candidate is
accepted (exp of a non-negative exponent is ≥ 1), the opposite of
accepting only strictly improving moves. -/
theorem zero_temperature_faults :
    acceptDecision 1 1 0 false = none ∧
    acceptDecision 5 3 (-1) false = some true ∧
    simulated_annealing ⟨[(0, 1)]⟩ 1 1 0 2 (fun _ => 0) (fun _ => 0) (fun _ => 0)
      (fun _ => false) = none := by
  refine ⟨by decide, by decide, ?_⟩
  have h1 : runAnnealing ⟨[(0, 1)]⟩ 1 1 0 2 (fun _ => 0) (fun _ => 0) (fun _ => 0)
      (fun _ => false) =
      annealIters ⟨[(0, 1)]⟩ 1 0 (fun _ => 0) (fun _ => 0) (fun _ => false) 1 1
        ⟨[(0, 0), (1, 0)], 1, [(0, 0), (1, 0)], 1, (1 : ℚ) * 0, [1, 1]⟩ := rfl
  have h2 : annealIters ⟨[(0, 1)]⟩ 1 0 (fun _ => 0) (fun _ => 0) (fun _ => false) 1 1
        ⟨[(0, 0), (1, 0)], 1, [(0, 0), (1, 0)], 1, (1 : ℚ) * 0, [1, 1]⟩ =
      annealIters ⟨[(0, 1)]⟩ 1 0 (fun _ => 0) (fun _ => 0) (fun _ => false) 1 1
        ⟨[(0, 0), (1, 0)], 1, [(0, 0), (1, 0)], 1, 0, [1, 1]⟩ := by
    rw [mul_zero]
  have h3 : annealIters ⟨[(0, 1)]⟩ 1 0 (fun _ => 0) (fun _ => 0) (fun _ => false) 1 1
        ⟨[(0, 0), (1, 0)], 1, [(0, 0), (1, 0)], 1, 0, [1, 1]⟩ = none := by decide
  unfold simulated_annealing
  rw [h1, h2, h3]

/-- C10: on a graph with an empty node set and at least one iteration, the
annealing run fails (the first `neighbor` call draws from an empty domain),
and so does `find_optimal_coloring`, which faults inside its very first
attempt. -/
theorem empty_graph_run_faults (it cr : ℚ) (nit : ℤ) (hnit : 1 ≤ nit)
    (n_colors : ℕ) (sI dN dC : ℕ → ℕ) (mb : ℕ → Bool)
    (sI2 dN2 dC2 : ℕ → ℕ → ℕ) (mb2 : ℕ → ℕ → Bool) (fuel : ℕ) (hfuel : 1 ≤ fuel) :
    simulated_annealing ⟨[]⟩ n_colors it cr nit sI dN dC mb = none ∧
    find_optimal_coloring ⟨[]⟩ it cr nit sI2 dN2 dC2 mb2 fuel = none := by
  obtain ⟨k, hk⟩ : ∃ k, nit.toNat = k + 1 := by
    refine ⟨nit.toNat - 1, ?_⟩
    omega
  have hsim : ∀ (nc : ℕ) (a b c : ℕ → ℕ) (m : ℕ → Bool),
      simulated_annealing ⟨[]⟩ nc it cr nit a b c m = none := by
    intro nc a b c m
    have hstep : annealStep ⟨[]⟩ nc cr (b 0) (c 0) (m 0) ⟨[], 0, [], 0, it, [0]⟩ = none := rfl
    have hrun : runAnnealing ⟨[]⟩ nc it cr nit a b c m =
        annealIters ⟨[]⟩ nc cr b c m 0 nit.toNat ⟨[], 0, [], 0, it, [0]⟩ := rfl
    unfold simulated_annealing
    rw [hrun, hk]
    simp only [annealIters, hstep]
  refine ⟨hsim n_colors sI dN dC mb, ?_⟩
  obtain ⟨f, hf⟩ : ∃ f, fuel = f + 1 := ⟨fuel - 1, by omega⟩
  unfold find_optimal_coloring
  rw [hf]
  simp only [findLoop, hsim 1 (sI2 1) (dN2 1) (dC2 1) (mb2 1)]

/-- Witness for C10 at one iteration, one unit of fuel and constant draw
streams. -/
theorem empty_graph_run_faults_witness :
    (1 : ℤ) ≤ 1 ∧ 1 ≤ 1 ∧
    (simulated_annealing ⟨[]⟩ 1 1 1 1 (fun _ => 0) (fun _ => 0) (fun _ => 0)
        (fun _ => false) = none ∧
      find_optimal_coloring ⟨[]⟩ 1 1 1 (fun _ _ => 0) (fun _ _ => 0) (fun _ _ => 0)
        (fun _ _ => false) 1 = none) :=
  ⟨le_refl 1, le_refl 1,
    empty_graph_run_faults 1 1 1 (le_refl 1) 1 (fun _ => 0) (fun _ => 0) (fun _ => 0)
      (fun _ => false) (fun _ _ => 0) (fun _ _ => 0) (fun _ _ => 0) (fun _ _ => false)
      1 (le_refl 1)⟩
